import Mathlib

/-!
Verification of the `pid-loop` PID controller against its specification.

The controller state and its operations are embedded from `src/lib.rs`,
instantiated at the ordered field of rationals (the Rust code is generic
over any numeric type with `+`, `-`, `*`, ordering and a zero default).
-/

/-- Controller state, mirroring `struct PID<F>` in `src/lib.rs`. -/
structure PID where
  kp : ℚ
  ki : ℚ
  kd : ℚ
  last_error : ℚ
  error_sum : ℚ
  min_error_sum : Option ℚ
  max_error_sum : Option ℚ
  deriving Repr, DecidableEq

namespace PID

/-- Embeds `PID::new`: gains as given, history zeroed, no clamp bounds. -/
def new (kp ki kd : ℚ) : PID :=
  { kp := kp, ki := ki, kd := kd
    last_error := 0, error_sum := 0
    min_error_sum := none, max_error_sum := none }

/-- Embeds `PID::reset`: zero `last_error` and `error_sum`, touch nothing else. -/
def reset (s : PID) : PID :=
  { s with last_error := 0, error_sum := 0 }

/-- Embeds `PID::set_min_error_sum`. -/
def set_min_error_sum (s : PID) (mn : Option ℚ) : PID :=
  { s with min_error_sum := mn }

/-- Embeds `PID::set_max_error_sum`. -/
def set_max_error_sum (s : PID) (mx : Option ℚ) : PID :=
  { s with max_error_sum := mx }

/-- Embeds `PID::next`: returns the updated state and the correction.
The clamp is applied exactly as in the source: the max bound first
(strictly-greater test), then the min bound (strictly-less test). -/
def next (s : PID) (sp fb : ℚ) : PID × ℚ :=
  let error := sp - fb
  let error_delta := error - s.last_error
  let sum0 := s.error_sum + error
  let sum1 := match s.max_error_sum with
    | some mx => if sum0 > mx then mx else sum0
    | none => sum0
  let sum2 := match s.min_error_sum with
    | some mn => if sum1 < mn then mn else sum1
    | none => sum1
  ({ s with last_error := error, error_sum := sum2 },
    error * s.kp + sum2 * s.ki + error_delta * s.kd)

/-- Feed a list of `(sp, fb)` samples through the controller, collecting the
final state and the list of corrections in order. -/
def run (s : PID) : List (ℚ × ℚ) → PID × List ℚ
  | [] => (s, [])
  | p :: rest =>
    let r := s.next p.1 p.2
    let rr := r.1.run rest
    (rr.1, r.2 :: rr.2)

end PID

/-- The clamped error sum as the spec words it: the old sum plus the error,
clamped first to the max bound and then to the min bound, each only if set. -/
def specErrorSum (s : PID) (error : ℚ) : ℚ :=
  (s.min_error_sum.elim
    (s.max_error_sum.elim (s.error_sum + error) (fun mx => min (s.error_sum + error) mx))
    (fun mn => max (s.max_error_sum.elim (s.error_sum + error)
      (fun mx => min (s.error_sum + error) mx)) mn))

lemma next_fst_error_sum (s : PID) (sp fb : ℚ) :
    (s.next sp fb).1.error_sum = specErrorSum s (sp - fb) := by
  rcases hmn : s.min_error_sum with _ | mn <;> rcases hmx : s.max_error_sum with _ | mx <;>
    simp only [PID.next, specErrorSum, hmn, hmx, Option.elim, gt_iff_lt, min_def, max_def] <;>
    split_ifs <;> first | rfl | linarith

lemma next_fst_last_error (s : PID) (sp fb : ℚ) :
    (s.next sp fb).1.last_error = sp - fb := rfl

lemma next_snd_eq (s : PID) (sp fb : ℚ) :
    (s.next sp fb).2 = (sp - fb) * s.kp + (s.next sp fb).1.error_sum * s.ki
      + ((sp - fb) - s.last_error) * s.kd := rfl

/-- C1: `next(sp, fb)` computes `error = sp - fb`,
`error_delta = error - last_error`, a new error sum equal to the old sum plus
the error clamped max-then-min (each bound only if set), returns
`kp*error + ki*new_error_sum + kd*error_delta`, and stores `error` as
`last_error` and the new sum as `error_sum` for the following call. -/
theorem next_computes_clamped_pid_step (s : PID) (sp fb : ℚ) :
    (s.next sp fb).2
        = s.kp * (sp - fb) + s.ki * specErrorSum s (sp - fb)
          + s.kd * ((sp - fb) - s.last_error)
      ∧ (s.next sp fb).1.last_error = sp - fb
      ∧ (s.next sp fb).1.error_sum = specErrorSum s (sp - fb) := by
  refine ⟨?_, next_fst_last_error s sp fb, next_fst_error_sum s sp fb⟩
  rw [next_snd_eq, next_fst_error_sum]
  ring

/-- C6: `reset` zeroes the error sum and the last-error history and leaves the
gains `kp`, `ki`, `kd` unchanged. -/
theorem reset_zeroes_history_keeps_gains (s : PID) :
    s.reset.error_sum = 0 ∧ s.reset.last_error = 0
      ∧ s.reset.kp = s.kp ∧ s.reset.ki = s.ki ∧ s.reset.kd = s.kd := by
  simp [PID.reset]

/-- C9: `reset` does not clear the clamp bounds: `min_error_sum` and
`max_error_sum` are exactly the same after `reset` as before it. -/
theorem reset_preserves_clamp_bounds (s : PID) :
    s.reset.min_error_sum = s.min_error_sum
      ∧ s.reset.max_error_sum = s.max_error_sum := by
  simp [PID.reset]

/-- C7: `set_min_error_sum` and `set_max_error_sum` change only the
corresponding clamp bound; the stored error sum, last error and gains are
untouched, so the stored sum is not re-clamped when a bound is installed. -/
theorem set_bounds_change_only_bounds (s : PID) (v : Option ℚ) :
    ((s.set_min_error_sum v).error_sum = s.error_sum
      ∧ (s.set_min_error_sum v).last_error = s.last_error
      ∧ (s.set_min_error_sum v).kp = s.kp
      ∧ (s.set_min_error_sum v).ki = s.ki
      ∧ (s.set_min_error_sum v).kd = s.kd
      ∧ (s.set_min_error_sum v).max_error_sum = s.max_error_sum
      ∧ (s.set_min_error_sum v).min_error_sum = v)
    ∧ ((s.set_max_error_sum v).error_sum = s.error_sum
      ∧ (s.set_max_error_sum v).last_error = s.last_error
      ∧ (s.set_max_error_sum v).kp = s.kp
      ∧ (s.set_max_error_sum v).ki = s.ki
      ∧ (s.set_max_error_sum v).kd = s.kd
      ∧ (s.set_max_error_sum v).min_error_sum = s.min_error_sum
      ∧ (s.set_max_error_sum v).max_error_sum = v) := by
  simp [PID.set_min_error_sum, PID.set_max_error_sum]

lemma next_fst_min_bound (s : PID) (sp fb : ℚ) :
    (s.next sp fb).1.min_error_sum = s.min_error_sum := rfl

lemma next_fst_max_bound (s : PID) (sp fb : ℚ) :
    (s.next sp fb).1.max_error_sum = s.max_error_sum := rfl

lemma next_min_le_sum (s : PID) (sp fb mn : ℚ) (hmn : s.min_error_sum = some mn) :
    mn ≤ (s.next sp fb).1.error_sum := by
  simp only [PID.next, hmn]
  split_ifs <;> linarith

lemma next_sum_le_max_of_min_none (s : PID) (sp fb mx : ℚ)
    (hmx : s.max_error_sum = some mx) (hmn : s.min_error_sum = none) :
    (s.next sp fb).1.error_sum ≤ mx := by
  simp only [PID.next, hmx, hmn, gt_iff_lt]
  split_ifs <;> linarith

lemma next_sum_le_max_of_min_le (s : PID) (sp fb mn mx : ℚ)
    (hmx : s.max_error_sum = some mx) (hmn : s.min_error_sum = some mn)
    (hle : mn ≤ mx) : (s.next sp fb).1.error_sum ≤ mx := by
  simp only [PID.next, hmx, hmn, gt_iff_lt]
  split_ifs <;> linarith

lemma run_min_le_error_sum : ∀ (inputs : List (ℚ × ℚ)) (s : PID) (mn : ℚ),
    inputs ≠ [] → s.min_error_sum = some mn → mn ≤ ((s.run inputs).1).error_sum := by
  intro inputs
  induction inputs with
  | nil => intro s mn h _; exact absurd rfl h
  | cons p rest ih =>
    intro s mn _ hmn
    cases rest with
    | nil => exact next_min_le_sum s p.1 p.2 mn hmn
    | cons q rest' =>
      exact ih ((s.next p.1 p.2).1) mn (by simp)
        (by rw [next_fst_min_bound]; exact hmn)

lemma run_error_sum_le_max : ∀ (inputs : List (ℚ × ℚ)) (s : PID) (mx : ℚ),
    inputs ≠ [] → s.max_error_sum = some mx →
    (s.min_error_sum = none ∨ ∃ mn, s.min_error_sum = some mn ∧ mn ≤ mx) →
    ((s.run inputs).1).error_sum ≤ mx := by
  intro inputs
  induction inputs with
  | nil => intro s mx h _ _; exact absurd rfl h
  | cons p rest ih =>
    intro s mx _ hmx hside
    cases rest with
    | nil =>
      rcases hside with hmn | ⟨mn, hmn, hle⟩
      · exact next_sum_le_max_of_min_none s p.1 p.2 mx hmx hmn
      · exact next_sum_le_max_of_min_le s p.1 p.2 mn mx hmx hmn hle
    | cons q rest' =>
      refine ih ((s.next p.1 p.2).1) mx (by simp) ?_ ?_
      · rw [next_fst_max_bound]; exact hmx
      · rw [next_fst_min_bound]; exact hside

/-- C2: after any nonempty sequence of `next` calls, the stored error sum is
within `[min, max]` when both bounds are set with `min ≤ max`, is at most
`max` when only the max bound is set, and is at least `min` when only the min
bound is set. -/
theorem run_error_sum_within_clamp_bounds (s : PID) (inputs : List (ℚ × ℚ))
    (hne : inputs ≠ []) :
    (∀ mn mx, s.min_error_sum = some mn → s.max_error_sum = some mx → mn ≤ mx →
        mn ≤ ((s.run inputs).1).error_sum ∧ ((s.run inputs).1).error_sum ≤ mx)
      ∧ (∀ mx, s.max_error_sum = some mx → s.min_error_sum = none →
          ((s.run inputs).1).error_sum ≤ mx)
      ∧ (∀ mn, s.min_error_sum = some mn → s.max_error_sum = none →
          mn ≤ ((s.run inputs).1).error_sum) := by
  refine ⟨fun mn mx hmn hmx hle => ⟨run_min_le_error_sum inputs s mn hne hmn, ?_⟩,
    fun mx hmx hmn => ?_, fun mn hmn _ => run_min_le_error_sum inputs s mn hne hmn⟩
  · exact run_error_sum_le_max inputs s mx hne hmx (Or.inr ⟨mn, hmn, hle⟩)
  · exact run_error_sum_le_max inputs s mx hne hmx (Or.inl hmn)

/-- Closed instance of C2: both bounds `[-5, 5]` installed, one large sample. -/
theorem run_error_sum_within_clamp_bounds_witness :
    (-5 : ℚ) ≤ (((((PID.new 1 1 1).set_min_error_sum (some (-5))).set_max_error_sum
          (some 5)).run [(10, 0)]).1).error_sum
      ∧ (((((PID.new 1 1 1).set_min_error_sum (some (-5))).set_max_error_sum
          (some 5)).run [(10, 0)]).1).error_sum ≤ 5 :=
  (run_error_sum_within_clamp_bounds _ [(10, 0)] (by simp)).1 (-5) 5 rfl rfl
    (by norm_num)

lemma next_zero_state (s : PID) (sp fb : ℚ) (hp : sp = fb)
    (h1 : s.last_error = 0) (h2 : s.error_sum = 0)
    (h3 : s.min_error_sum = none) (h4 : s.max_error_sum = none) :
    s.next sp fb = (s, 0) := by
  subst hp
  cases s with
  | mk kp ki kd le es mn mx => simp_all [PID.next]

lemma run_zero_outputs : ∀ (inputs : List (ℚ × ℚ)) (s : PID),
    s.last_error = 0 → s.error_sum = 0 →
    s.min_error_sum = none → s.max_error_sum = none →
    (∀ p ∈ inputs, p.1 = p.2) →
    (s.run inputs).2 = List.replicate inputs.length 0 := by
  intro inputs
  induction inputs with
  | nil => intro s _ _ _ _ _; rfl
  | cons p rest ih =>
    intro s h1 h2 h3 h4 h
    have hstep : s.next p.1 p.2 = (s, 0) :=
      next_zero_state s p.1 p.2 (h p (by simp)) h1 h2 h3 h4
    show ((s.next p.1 p.2).2 :: (((s.next p.1 p.2).1).run rest).2)
        = List.replicate (p :: rest).length 0
    rw [hstep, List.length_cons, List.replicate_succ]
    exact congrArg (List.cons 0) (ih s h1 h2 h3 h4 fun q hq => h q (by simp [hq]))

/-- C3: for all gains, feeding a controller from construction any sequence in
which the setpoint equals the feedback on every tick produces the zero
correction on every call. -/
theorem zero_error_sequence_gives_zero_outputs (kp ki kd : ℚ)
    (inputs : List (ℚ × ℚ)) (h : ∀ p ∈ inputs, p.1 = p.2) :
    ((PID.new kp ki kd).run inputs).2 = List.replicate inputs.length 0 :=
  run_zero_outputs inputs (PID.new kp ki kd) rfl rfl rfl rfl h

/-- Closed instance of C3: gains `1, 2, 3`, two ticks with `sp = fb`. -/
theorem zero_error_sequence_gives_zero_outputs_witness :
    ((PID.new 1 2 3).run [(3, 3), (4, 4)]).2
      = List.replicate ([((3 : ℚ), (3 : ℚ)), (4, 4)].length) 0 :=
  zero_error_sequence_gives_zero_outputs 1 2 3 [(3, 3), (4, 4)] (by norm_num)

/-- Counterexample to C4 as stated: a max bound of `0` installed before the
reset survives it, so the reset controller clamps while the fresh one does
not, and their outputs differ on the input `(1, 0)` with gains `0, 1, 0`. -/
theorem reset_not_equivalent_to_fresh_counterexample :
    ((((PID.new (0 : ℚ) 1 0).set_max_error_sum (some 0)).reset).run [(1, 0)]).2
      ≠ ((PID.new (0 : ℚ) 1 0).run [(1, 0)]).2 := by
  norm_num [PID.run, PID.next, PID.new, PID.reset, PID.set_max_error_sum]

/-- C4 amended: after `reset`, feeding any input sequence produces exactly the
outputs of a freshly constructed controller with the same gains and the same
clamp bounds installed (all history is cleared; only the bounds survive). -/
theorem reset_run_eq_fresh_with_same_bounds (s : PID) (inputs : List (ℚ × ℚ)) :
    (s.reset.run inputs).2
      = ((((PID.new s.kp s.ki s.kd).set_min_error_sum
            s.min_error_sum).set_max_error_sum s.max_error_sum).run inputs).2 := by
  have hst : s.reset = ((PID.new s.kp s.ki s.kd).set_min_error_sum
      s.min_error_sum).set_max_error_sum s.max_error_sum := by
    cases s; rfl
  rw [hst]

/-- C10: when both bounds are set with `max < min` and the unclamped sum
exceeds `max`, the max clamp fires first and the min clamp afterwards, so the
stored sum ends at `min` and the correction uses that min-clamped sum. -/
theorem max_clamp_applied_before_min (s : PID) (sp fb mn mx : ℚ)
    (hmx : s.max_error_sum = some mx) (hmn : s.min_error_sum = some mn)
    (hover : mx < s.error_sum + (sp - fb)) (hlt : mx < mn) :
    (s.next sp fb).1.error_sum = mn
      ∧ (s.next sp fb).2
          = (sp - fb) * s.kp + mn * s.ki + ((sp - fb) - s.last_error) * s.kd := by
  have h1 : (s.next sp fb).1.error_sum = mn := by
    simp only [PID.next, hmx, hmn, gt_iff_lt]
    split_ifs <;> first | rfl | linarith
  exact ⟨h1, by rw [next_snd_eq, h1]⟩

/-- Closed instance of C10: bounds `min = 10 > max = 5`, sample pushing the
sum to `7`; the stored sum ends at `10` and the correction is `24`. -/
theorem max_clamp_applied_before_min_witness :
    ((((PID.new 1 1 1).set_min_error_sum (some 10)).set_max_error_sum
          (some 5)).next 7 0).1.error_sum = 10
      ∧ ((((PID.new 1 1 1).set_min_error_sum (some 10)).set_max_error_sum
          (some 5)).next 7 0).2
        = (7 - 0) * (((PID.new 1 1 1).set_min_error_sum
            (some 10)).set_max_error_sum (some 5)).kp
          + 10 * (((PID.new 1 1 1).set_min_error_sum
            (some 10)).set_max_error_sum (some 5)).ki
          + ((7 - 0) - (((PID.new 1 1 1).set_min_error_sum
            (some 10)).set_max_error_sum (some 5)).last_error)
            * (((PID.new 1 1 1).set_min_error_sum
            (some 10)).set_max_error_sum (some 5)).kd :=
  max_clamp_applied_before_min _ 7 0 10 5 rfl rfl (by norm_num [PID.new,
    PID.set_min_error_sum, PID.set_max_error_sum]) (by norm_num)

/-- C5: with `kp=2, ki=0.7, kd=0.3` and no clamps, the first call
`next(42, 0)` yields correction `126`, and stores `last_error = 42` and
`error_sum = 42`. -/
theorem first_call_concrete_scenario :
    ((PID.new 2 (7/10) (3/10)).next 42 0).2 = 126
      ∧ ((PID.new 2 (7/10) (3/10)).next 42 0).1.last_error = 42
      ∧ ((PID.new 2 (7/10) (3/10)).next 42 0).1.error_sum = 42 := by
  refine ⟨?_, ?_, ?_⟩ <;> norm_num [PID.new, PID.next]

/-- Modelled from the spec: the windowed controller variant of §4.3 is not
present under `src/` (only the plain variant of `src/lib.rs` is), so its state
is taken from the spec's words: a fixed-size ring buffer `errors` of W recent
error samples with a write cursor `idx`. -/
structure WPID where
  kp : ℚ
  ki : ℚ
  kd : ℚ
  errors : List ℚ
  idx : ℕ
  deriving Repr, DecidableEq

namespace WPID

/-- Modelled from the spec: construction of the windowed variant initializes
all `W` buffer slots to zero and the cursor to the first slot. -/
def new (W : ℕ) (kp ki kd : ℚ) : WPID :=
  { kp := kp, ki := ki, kd := kd, errors := List.replicate W 0, idx := 0 }

/-- Modelled from the spec: the windowed `next` computes `error = sp - fb`,
`error_delta = error - errors[idx]`, advances `idx = (idx + 1) mod W`, stores
`errors[idx] = error`, recomputes the integral term as the full sum over the
`W`-slot buffer, and returns `kp*error + ki*integral + kd*error_delta`. -/
def next (s : WPID) (sp fb : ℚ) : WPID × ℚ :=
  let W := s.errors.length
  let error := sp - fb
  let error_delta := error - s.errors.getD s.idx 0
  let idx := (s.idx + 1) % W
  let errors := s.errors.set idx error
  let integral := errors.sum
  ({ s with errors := errors, idx := idx },
    error * s.kp + integral * s.ki + error_delta * s.kd)

/-- State-only step of the windowed `next`, as a function of the error. -/
def stepE (s : WPID) (e : ℚ) : WPID :=
  { s with idx := (s.idx + 1) % s.errors.length
           errors := s.errors.set ((s.idx + 1) % s.errors.length) e }

/-- Feed a list of error samples through the windowed controller state. -/
def feed (s : WPID) : List ℚ → WPID
  | [] => s
  | e :: es => (s.stepE e).feed es

/-- Feed a list of `(sp, fb)` samples through the windowed controller,
collecting the final state and the list of corrections in order. -/
def run (s : WPID) : List (ℚ × ℚ) → WPID × List ℚ
  | [] => (s, [])
  | p :: rest =>
    let r := s.next p.1 p.2
    let rr := r.1.run rest
    (rr.1, r.2 :: rr.2)

end WPID

lemma wnext_fst_eq_stepE (s : WPID) (sp fb : ℚ) :
    (s.next sp fb).1 = s.stepE (sp - fb) := rfl

lemma wrun_fst_eq_feed : ∀ (inputs : List (ℚ × ℚ)) (s : WPID),
    (s.run inputs).1 = s.feed (inputs.map fun p => p.1 - p.2) := by
  intro inputs
  induction inputs with
  | nil => intro s; rfl
  | cons p rest ih => intro s; exact ih ((s.next p.1 p.2).1)

lemma feed_append_singleton (s : WPID) (es : List ℚ) (e : ℚ) :
    s.feed (es ++ [e]) = (s.feed es).stepE e := by
  induction es generalizing s with
  | nil => rfl
  | cons a as ih => exact ih (s.stepE a)

lemma getD_replicate_zero (n i : ℕ) : (List.replicate n (0 : ℚ)).getD i 0 = 0 := by
  rw [List.getD_eq_getD_get?, List.get?_eq_getElem?]
  exact List.getElem?_getD_replicate_default_eq 0 n i

lemma getD_drop (l : List ℚ) (n i : ℕ) : (l.drop n).getD i 0 = l.getD (n + i) 0 := by
  rw [List.getD_eq_getD_get?, List.getD_eq_getD_get?, List.get?_eq_getElem?,
    List.get?_eq_getElem?, List.getElem?_drop]

lemma sum_eq_range_getD (l : List ℚ) :
    l.sum = ∑ i in Finset.range l.length, l.getD i 0 := by
  induction l with
  | nil => simp
  | cons a l ih =>
    rw [List.sum_cons, List.length_cons, Finset.sum_range_succ', ih]
    simp [add_comm]

lemma mod_rotation_involution (W idx k : ℕ) (hW : 0 < W) (hk : k < W) :
    (idx + (W - (idx + (W - k)) % W)) % W = k := by
  have hm : (idx + (W - k)) % W < W := Nat.mod_lt _ hW
  have hdm : W * ((idx + (W - k)) / W) + (idx + (W - k)) % W = idx + (W - k) :=
    Nat.div_add_mod _ _
  have he : idx + (W - (idx + (W - k)) % W) = W * ((idx + (W - k)) / W) + k := by
    omega
  rw [he, Nat.mul_add_mod, Nat.mod_eq_of_lt hk]

lemma sum_range_rotation (W idx : ℕ) (hW : 0 < W) (f : ℕ → ℚ) :
    ∑ k in Finset.range W, f ((idx + (W - k)) % W) = ∑ j in Finset.range W, f j := by
  refine Finset.sum_nbij' (fun k => (idx + (W - k)) % W)
    (fun j => (idx + (W - j)) % W) ?_ ?_ ?_ ?_ ?_
  · exact fun a _ => Finset.mem_range.mpr (Nat.mod_lt _ hW)
  · exact fun a _ => Finset.mem_range.mpr (Nat.mod_lt _ hW)
  · exact fun a ha => mod_rotation_involution W idx a hW (Finset.mem_range.mp ha)
  · exact fun a ha => mod_rotation_involution W idx a hW (Finset.mem_range.mp ha)
  · exact fun a _ => rfl

lemma feed_invariant (W : ℕ) (kp ki kd : ℚ) (hW : 0 < W) (es : List ℚ) :
    ((WPID.new W kp ki kd).feed es).errors.length = W
      ∧ ((WPID.new W kp ki kd).feed es).idx = es.length % W
      ∧ ∀ k, k < W →
          ((WPID.new W kp ki kd).feed es).errors.getD
              ((((WPID.new W kp ki kd).feed es).idx + (W - k)) % W) 0
            = (List.replicate W (0 : ℚ) ++ es).getD (es.length + W - 1 - k) 0 := by
  induction es using List.reverseRecOn with
  | nil =>
    refine ⟨by simp [WPID.new, WPID.feed], by simp [WPID.new, WPID.feed], ?_⟩
    intro k hk
    simp [WPID.new, WPID.feed, getD_replicate_zero]
  | append_singleton es e ih =>
    obtain ⟨h1, h2, h3⟩ := ih
    rw [feed_append_singleton]
    set s' := (WPID.new W kp ki kd).feed es with hs'
    have hidx : s'.idx < W := h2 ▸ Nat.mod_lt _ hW
    simp only [WPID.stepE, h1]
    have hidx'' : (s'.idx + 1) % W < W := Nat.mod_lt _ hW
    have happlen : (es ++ [e]).length = es.length + 1 := by simp
    refine ⟨by simp [List.length_set, h1], ?_, ?_⟩
    · rw [happlen, h2, Nat.mod_add_mod]
    · intro k hk
      have hLlen : (List.replicate W (0 : ℚ) ++ es).length = W + es.length := by
        simp [List.length_append, List.length_replicate]
      rcases Nat.eq_zero_or_pos k with hk0 | hk1
      · subst hk0
        have hidem : ((s'.idx + 1) % W + (W - 0)) % W = (s'.idx + 1) % W := by
          rw [Nat.sub_zero, Nat.add_mod_right]
          exact Nat.mod_eq_of_lt hidx''
        rw [hidem, List.getD_eq_getD_get?,
          List.get?_set_eq_of_lt e (h1 ▸ hidx''), Option.getD_some]
        have hidx2 : (es ++ [e]).length + W - 1 - 0 = W + es.length := by omega
        rw [hidx2, ← List.append_assoc, List.getD_append_right _ _ _ _ (by rw [hLlen])]
        rw [hLlen, Nat.sub_self]
        rfl
      · have hne : ((s'.idx + 1) % W + (W - k)) % W ≠ (s'.idx + 1) % W := by
          intro hj
          rw [Nat.mod_add_mod] at hj
          have hmod : s'.idx + 1 + (W - k) ≡ s'.idx + 1 + 0 [MOD W] := by
            show (s'.idx + 1 + (W - k)) % W = (s'.idx + 1 + 0) % W
            rw [Nat.add_zero]
            exact hj
          have h7 : (W - k) % W = 0 % W := Nat.ModEq.add_left_cancel' _ hmod
          rw [Nat.mod_eq_of_lt (show W - k < W by omega), Nat.zero_mod] at h7
          omega
        rw [List.getD_eq_getD_get?, List.get?_set_ne e _ hne.symm,
          ← List.getD_eq_getD_get?]
        have hj2 : ((s'.idx + 1) % W + (W - k)) % W = (s'.idx + (W - (k - 1))) % W := by
          rw [Nat.mod_add_mod]
          congr 1
          omega
        rw [hj2, h3 (k - 1) (by omega)]
        have hidx3 : es.length + W - 1 - (k - 1) = es.length + W - k := by omega
        have hidx4 : (es ++ [e]).length + W - 1 - k = es.length + W - k := by omega
        rw [hidx3, hidx4, ← List.append_assoc]
        exact (List.getD_append _ _ _ _ (by rw [hLlen]; omega)).symm

lemma sum_range_getD_reflect (L : List ℚ) (n W : ℕ) :
    ∑ k in Finset.range W, L.getD (n + W - 1 - k) 0
      = ∑ i in Finset.range W, L.getD (n + i) 0 := by
  refine Finset.sum_nbij' (fun k => W - 1 - k) (fun i => W - 1 - i) ?_ ?_ ?_ ?_ ?_
  · intro a ha
    rw [Finset.mem_range] at ha ⊢
    dsimp only
    omega
  · intro a ha
    rw [Finset.mem_range] at ha ⊢
    dsimp only
    omega
  · intro a ha
    rw [Finset.mem_range] at ha
    dsimp only
    omega
  · intro a ha
    rw [Finset.mem_range] at ha
    dsimp only
    omega
  · intro a ha
    rw [Finset.mem_range] at ha
    dsimp only
    congr 1
    omega

lemma feed_errors_sum (W : ℕ) (kp ki kd : ℚ) (hW : 0 < W) (es : List ℚ) :
    ((WPID.new W kp ki kd).feed es).errors.sum
      = ((List.replicate W (0 : ℚ) ++ es).drop es.length).sum := by
  obtain ⟨h1, h2, h3⟩ := feed_invariant W kp ki kd hW es
  rw [sum_eq_range_getD, h1,
    ← sum_range_rotation W ((WPID.new W kp ki kd).feed es).idx hW
      (fun j => ((WPID.new W kp ki kd).feed es).errors.getD j 0)]
  rw [Finset.sum_congr rfl fun k hk => h3 k (Finset.mem_range.mp hk)]
  rw [sum_range_getD_reflect]
  have hlen : ((List.replicate W (0 : ℚ) ++ es).drop es.length).length = W := by
    simp [List.length_drop, List.length_append, List.length_replicate]
  rw [sum_eq_range_getD ((List.replicate W (0 : ℚ) ++ es).drop es.length), hlen]
  exact Finset.sum_congr rfl fun i _ => (getD_drop _ _ _).symm

/-- C8 (spec-modelled): in the windowed variant with window size `W ≥ 1`,
after `W` or more updates the buffer over which the integral term is summed
holds exactly the last `W` error values, so the integral term used by the
final `next` equals the sum of the last `W` errors and no older sample has
any influence. -/
theorem windowed_integral_is_trailing_window_sum (W : ℕ) (kp ki kd : ℚ)
    (inputs : List (ℚ × ℚ)) (hW : 0 < W) (hlen : W ≤ inputs.length) :
    (((WPID.new W kp ki kd).run inputs).1).errors.sum
      = ((inputs.map fun p => p.1 - p.2).drop (inputs.length - W)).sum := by
  rw [wrun_fst_eq_feed, feed_errors_sum W kp ki kd hW]
  congr 1
  have hmaplen : (inputs.map fun p => p.1 - p.2).length = inputs.length :=
    List.length_map _ _
  rw [List.drop_append_eq_append_drop]
  have h0 : (List.replicate W (0 : ℚ)).drop (inputs.map fun p => p.1 - p.2).length
      = [] := by
    apply List.drop_eq_nil_of_le
    rw [List.length_replicate, hmaplen]
    exact hlen
  rw [h0, List.nil_append, hmaplen, List.length_replicate]

/-- Closed instance of C8: `W = 3`, errors `1, 2, 3, 4`; after the fourth
tick the buffer sums to `2 + 3 + 4 = 9`, not `1 + 2 + 3 + 4`. -/
theorem windowed_integral_is_trailing_window_sum_witness :
    (((WPID.new 3 1 1 1).run [(1, 0), (2, 0), (3, 0), (4, 0)]).1).errors.sum
      = 9 :=
  (windowed_integral_is_trailing_window_sum 3 1 1 1 [(1, 0), (2, 0), (3, 0), (4, 0)]
    (by norm_num) (by norm_num)).trans (by norm_num)
